import Mathlib

/-!
# Verification of a consistent-hash ring (`consistent_hash.go`)

Shallow embedding of the Go package `consistent_hash` and proofs about it.

Modelling conventions:
* `uint32` values are `Nat`s; every hash output is reduced `% 4294967296`
  (the `uint32` range), matching the Go type.
* Go maps (`map[uint32]string`, `map[string]consistentNode`) are embedded as
  association lists with at most one entry per key (`insertA` removes the key
  first).  A `nil` Go map and an empty map are both `[]`: they are
  observationally identical through lookup/insert/delete, which is all the
  source does with them.
* The pluggable hash `func(string) uint32` is `Option (String → Nat)`;
  `none` is the `nil` function of a ring built by `NewConsistentHash` before
  the first successful `Add` installs the default.  A call through a `nil`
  function would panic in Go; the embedding of `GetNode` returns a dedicated
  error value in that case, so a theorem showing a different result proves the
  function was not invoked.
* `sort.Search(n, f)` returns the smallest index satisfying the (monotone)
  predicate, or `n`; for the predicates used here (`a[i] >= v` on a sorted
  slice) this is exactly "first index whose element is `>= v`", embedded as
  `lowerIdx`.
* `sort.Slice` with comparator `<` on a `[]uint32` produces the unique
  `≤`-sorted permutation, embedded as `List.insertionSort (· ≤ ·)`.
* Go's `append(a[:i], a[i+1:]...)` with `i` the search result is
  `List.eraseIdx a i` (when the searched value is present, `i` points at it;
  the out-of-range case `i = a.length`, where Go would panic on `a[i+1:]`
  when capacity is exhausted, does not arise in the states our theorems
  visit, and `eraseIdx` leaves the list unchanged there).
* Mutating methods on `*ConsistentHash` become functions
  `State → State × Option String`: the updated state plus `some errorMessage`
  or `none` for a `nil` error.  This keeps the partially mutated state
  observable when a method returns an error after having written.
-/

set_option autoImplicit false

namespace CHash

/-- The `uint32` modulus. -/
def u32 : Nat := 4294967296

/-! ## Association-list maps (embedding of Go maps) -/

/-- Go map lookup `m[k]` (second result of the comma-ok form): first entry
with the key, if any. -/
def lookupA {κ β : Type} [DecidableEq κ] : List (κ × β) → κ → Option β
  | [], _ => none
  | p :: ps, k => if p.1 = k then some p.2 else lookupA ps k

/-- Go map deletion `delete(m, k)`: drop every entry with the key. -/
def eraseA {κ β : Type} [DecidableEq κ] : List (κ × β) → κ → List (κ × β)
  | [], _ => []
  | p :: ps, k => if p.1 = k then eraseA ps k else p :: eraseA ps k

/-- Go map insertion `m[k] = v`: overwrite any previous binding. -/
def insertA {κ β : Type} [DecidableEq κ] (m : List (κ × β)) (k : κ) (v : β) : List (κ × β) :=
  (k, v) :: eraseA m k

/-! ## Data model (`consistent_hash.go`, lines 12-35) -/

/-- A caller-supplied node; the ring only ever reads its unique string key
(the `Node` interface, line 12). -/
structure GoNode where
  key : String
deriving DecidableEq, Repr

/-- `consistentNode` (line 16): the registry entry holding the node and the
hash positions of its virtual replicas. -/
structure ConsistentNode where
  node : GoNode
  virtualNodes : List Nat
deriving DecidableEq, Repr

/-- `ConsistentHash` (line 21).  The `sync.RWMutex` is not modelled: every
method is a whole critical section, so the sequential state transformer is
the observable behaviour. -/
structure ConsistentHash where
  hashSortedNodes : List Nat
  circle : List (Nat × String)
  nodes : List (String × ConsistentNode)
  hash : Option (String → Nat)

/-- `crc32.ChecksumIEEE` over the UTF-8 bytes, one reflected-polynomial step
per byte. -/
def crc32Step (crc b : Nat) : Nat :=
  (List.range 8).foldl
    (fun c _ => if c % 2 = 1 then (c / 2) ^^^ 0xEDB88320 else c / 2)
    (crc ^^^ b)

/-- The default hash (lines 62-66): `crc32.ChecksumIEEE([]byte(key))`. -/
def crc32IEEE (s : String) : Nat :=
  (s.toUTF8.toList.foldl (fun c b => crc32Step c b.toNat) 0xFFFFFFFF) ^^^ 0xFFFFFFFF

/-- `NewConsistentHash` (line 29): zero value, all fields nil. -/
def NewConsistentHash : ConsistentHash :=
  { hashSortedNodes := [], circle := [], nodes := [], hash := none }

/-- `NewConsistentWithCustomHash` (line 33). -/
def NewConsistentWithCustomHash (h : String → Nat) : ConsistentHash :=
  { hashSortedNodes := [], circle := [], nodes := [], hash := some h }

/-- `c.hashKey` through an already-installed function `f`, with the `uint32`
truncation of the Go return type. -/
def hashVal (f : String → Nat) (key : String) : Nat :=
  f key % u32

/-! ## Registration (`AddWithVirtualNode`, lines 45-100) -/

/-- The candidate position for replica index `i`, retry `j` (line 77):
`c.hashKey(node.Key() + strconv.Itoa(i) + strconv.Itoa(j))`. -/
def candidate (f : String → Nat) (key : String) (i j : Nat) : Nat :=
  hashVal f (key ++ toString i ++ toString j)

/-- The inner retry loop (lines 75-83), `j = 0, 1, 2`: first unoccupied
candidate, or `none` when all three collide. -/
def findFree (circle : List (Nat × String)) (f : String → Nat) (key : String)
    (i : Nat) : Option Nat :=
  if lookupA circle (candidate f key i 0) = none then some (candidate f key i 0)
  else if lookupA circle (candidate f key i 1) = none then some (candidate f key i 1)
  else if lookupA circle (candidate f key i 2) = none then some (candidate f key i 2)
  else none

/-- The replica loop (lines 74-90), `n` replicas remaining starting at index
`i`.  Returns the circle as mutated so far together with the placed
positions, or `none` in place of the positions when a replica exhausts its
retries — the circle writes of the earlier replicas (line 88) remain. -/
def placeLoop (f : String → Nat) (key : String) :
    List (Nat × String) → Nat → Nat → List (Nat × String) × Option (List Nat)
  | circ, _, 0 => (circ, some [])
  | circ, i, n + 1 =>
    match findFree circ f key i with
    | none => (circ, none)
    | some k =>
      let r := placeLoop f key (insertA circ k key) (i + 1) n
      (r.1, r.2.map (fun vs => k :: vs))

/-- `AddWithVirtualNode` (line 45). -/
def AddWithVirtualNode (c : ConsistentHash) (node : Option GoNode)
    (virtualNodeCount : Nat) : ConsistentHash × Option String :=
  match node with
  | none => (c, some "node is nil")
  | some nd =>
    if virtualNodeCount < 1 then (c, some "virtualNodeCount can't less 1")
    else
      let f := c.hash.getD crc32IEEE
      let c := { c with hash := some f }
      if (lookupA c.nodes nd.key).isSome then
        (c, some ("node " ++ nd.key ++ " already exised"))
      else
        match placeLoop f nd.key c.circle 0 virtualNodeCount with
        | (circle', none) =>
          ({ c with circle := circle' }, some ("node " ++ nd.key ++ " hash collision"))
        | (circle', some virtualNodes) =>
          ({ c with
              circle := circle',
              hashSortedNodes :=
                (c.hashSortedNodes ++ virtualNodes).insertionSort (· ≤ ·),
              nodes := insertA c.nodes nd.key ⟨nd, virtualNodes⟩ },
            none)

/-- `Add` (line 41): one virtual node. -/
def Add (c : ConsistentHash) (node : Option GoNode) : ConsistentHash × Option String :=
  AddWithVirtualNode c node 1

/-! ## Removal (`Remove`, lines 102-124) -/

/-- `sort.Search(len l, fun i => l[i] >= v)`: smallest index whose element is
`≥ v`, or `l.length`. -/
def lowerIdx : List Nat → Nat → Nat
  | [], _ => 0
  | x :: xs, v => if v ≤ x then 0 else lowerIdx xs v + 1

/-- One deletion of the binary-search loop (lines 117-122). -/
def removeSorted (l : List Nat) (v : Nat) : List Nat :=
  l.eraseIdx (lowerIdx l v)

/-- `Remove` (line 102). -/
def Remove (c : ConsistentHash) (node : GoNode) : ConsistentHash × Option String :=
  match lookupA c.nodes node.key with
  | none => (c, some ("node " ++ node.key ++ " not exist"))
  | some cNode =>
    ({ c with
        nodes := eraseA c.nodes node.key,
        circle := cNode.virtualNodes.foldl (fun m v => eraseA m v) c.circle,
        hashSortedNodes :=
          cNode.virtualNodes.foldl (fun l v => removeSorted l v) c.hashSortedNodes },
      none)

/-! ## Resolution (`GetNode` / `getPosition`, lines 126-151) -/

/-- `getPosition` (line 139) on a position list; `lowerIdx l hash` is the
`i := sort.Search(...)` of line 140. -/
def getPositionL (l : List Nat) (hash : Nat) : Nat :=
  if lowerIdx l hash < l.length then
    if lowerIdx l hash = l.length - 1 then 0 else lowerIdx l hash
  else l.length - 1

/-- `getPosition` (line 139). -/
def getPosition (c : ConsistentHash) (hash : Nat) : Nat :=
  getPositionL c.hashSortedNodes hash

/-- `GetNode` (line 126).  The result is `Except errorMessage (Option node)`;
`ok none` stands for Go's non-error return of a `nil` node (the zero value
that map misses produce), and the `nil hash` error stands for the panic of
calling a `nil` function — `GetNode` only reaches it when the registry is
non-empty. -/
def GetNode (c : ConsistentHash) (key : String) : Except String (Option GoNode) :=
  if c.nodes.length = 0 then Except.error "node size is 0"
  else
    match c.hash with
    | none => Except.error "panic: call of nil hash"
    | some f =>
      let h := hashVal f key
      let i := getPosition c h
      let pos := c.hashSortedNodes.getD i 0
      let nodeKey := (lookupA c.circle pos).getD ""
      Except.ok ((lookupA c.nodes nodeKey).map (fun cn => cn.node))

/-! ## Lemmas about the association-list maps -/

theorem lookupA_eq_none_iff {κ β : Type} [DecidableEq κ] (m : List (κ × β)) (k : κ) :
    lookupA m k = none ↔ ∀ p ∈ m, p.1 ≠ k := by
  induction m with
  | nil => simp [lookupA]
  | cons q m ih =>
    by_cases hq : q.1 = k <;> simp [lookupA, hq, ih]

theorem lookupA_eraseA_self {κ β : Type} [DecidableEq κ] (m : List (κ × β)) (k : κ) :
    lookupA (eraseA m k) k = none := by
  induction m with
  | nil => rfl
  | cons q m ih =>
    by_cases hq : q.1 = k <;> simp [eraseA, lookupA, hq, ih]

theorem lookupA_eraseA_ne {κ β : Type} [DecidableEq κ] (m : List (κ × β)) (k k' : κ)
    (h : k' ≠ k) : lookupA (eraseA m k) k' = lookupA m k' := by
  have hkk' : ¬ k = k' := fun e => h e.symm
  induction m with
  | nil => rfl
  | cons q m ih =>
    by_cases hq : q.1 = k
    · simp [eraseA, lookupA, hq, hkk', ih]
    · by_cases hk' : q.1 = k' <;> simp [eraseA, lookupA, hq, hk', h, ih]

theorem lookupA_eraseA_none {κ β : Type} [DecidableEq κ] (m : List (κ × β)) (k k' : κ)
    (h : lookupA m k' = none) : lookupA (eraseA m k) k' = none := by
  by_cases e : k' = k
  · rw [e]; exact lookupA_eraseA_self m k
  · rw [lookupA_eraseA_ne m k k' e]; exact h

theorem lookupA_insertA_self {κ β : Type} [DecidableEq κ] (m : List (κ × β)) (k : κ) (v : β) :
    lookupA (insertA m k v) k = some v := by
  simp [insertA, lookupA]

theorem lookupA_insertA_ne {κ β : Type} [DecidableEq κ] (m : List (κ × β)) (k k' : κ) (v : β)
    (h : k' ≠ k) : lookupA (insertA m k v) k' = lookupA m k' := by
  have : ¬ k = k' := fun e => h e.symm
  simp [insertA, lookupA, this]
  exact lookupA_eraseA_ne m k k' h

theorem eraseA_eq_self_of_lookupA_none {κ β : Type} [DecidableEq κ] (m : List (κ × β)) (k : κ)
    (h : lookupA m k = none) : eraseA m k = m := by
  induction m with
  | nil => rfl
  | cons q m ih =>
    rw [lookupA_eq_none_iff] at h
    have hq : ¬ q.1 = k := h q (List.mem_cons_self q m)
    have : lookupA m k = none := by
      rw [lookupA_eq_none_iff]
      exact fun p hp => h p (List.mem_cons_of_mem q hp)
    simp [eraseA, hq, ih this]

theorem insertA_eq_cons_of_lookupA_none {κ β : Type} [DecidableEq κ] (m : List (κ × β))
    (k : κ) (v : β) (h : lookupA m k = none) : insertA m k v = (k, v) :: m := by
  rw [insertA, eraseA_eq_self_of_lookupA_none m k h]

theorem lookupA_isSome_iff {κ β : Type} [DecidableEq κ] (m : List (κ × β)) (k : κ) :
    (lookupA m k).isSome ↔ k ∈ m.map Prod.fst := by
  induction m with
  | nil => simp [lookupA]
  | cons q m ih =>
    by_cases hq : q.1 = k
    · simp [lookupA, hq]
    · have hq' : ¬ k = q.1 := fun e => hq e.symm
      simp [lookupA, hq, hq', ih]

theorem eraseA_sublist {κ β : Type} [DecidableEq κ] (m : List (κ × β)) (k : κ) :
    (eraseA m k).Sublist m := by
  induction m with
  | nil => simp [eraseA]
  | cons q m ih =>
    by_cases hq : q.1 = k
    · simp only [eraseA, if_pos hq]
      exact ih.cons q
    · simp only [eraseA, if_neg hq]
      exact ih.cons₂ q

theorem lookupA_foldl_eraseA_not_mem {β : Type} (m : List (Nat × β)) (ks : List Nat) (k : Nat)
    (h : k ∉ ks) : lookupA (ks.foldl (fun m v => eraseA m v) m) k = lookupA m k := by
  induction ks generalizing m with
  | nil => rfl
  | cons v ks ih =>
    have hk : k ∉ ks := fun hm => h (List.mem_cons_of_mem v hm)
    have hv : k ≠ v := fun e => h (e ▸ List.mem_cons_self v ks)
    simp only [List.foldl_cons]
    rw [ih (eraseA m v) hk, lookupA_eraseA_ne m v k hv]

theorem lookupA_foldl_eraseA_none {β : Type} (m : List (Nat × β)) (ks : List Nat) (k : Nat)
    (h : lookupA m k = none) : lookupA (ks.foldl (fun m v => eraseA m v) m) k = none := by
  induction ks generalizing m with
  | nil => exact h
  | cons v ks ih =>
    simp only [List.foldl_cons]
    exact ih (eraseA m v) (lookupA_eraseA_none m v k h)

theorem lookupA_foldl_eraseA_mem {β : Type} (m : List (Nat × β)) (ks : List Nat) (k : Nat)
    (h : k ∈ ks) : lookupA (ks.foldl (fun m v => eraseA m v) m) k = none := by
  induction ks generalizing m with
  | nil => exact absurd h (List.not_mem_nil k)
  | cons v ks ih =>
    simp only [List.foldl_cons]
    by_cases hk : k ∈ ks
    · exact ih (eraseA m v) hk
    · have hv : k = v := by
        rcases List.mem_cons.mp h with e | e
        · exact e
        · exact absurd e hk
      subst hv
      exact lookupA_foldl_eraseA_none (eraseA m k) ks k (lookupA_eraseA_self m k)

/-! ## Lemmas about `lowerIdx` and sorted position lists -/

theorem lowerIdx_le_length (l : List Nat) (v : Nat) : lowerIdx l v ≤ l.length := by
  induction l with
  | nil => exact Nat.le_refl 0
  | cons x xs ih =>
    by_cases h : v ≤ x <;> simp [lowerIdx, h]
    exact ih

theorem lowerIdx_eq_length_iff (l : List Nat) (v : Nat) :
    lowerIdx l v = l.length ↔ ∀ x ∈ l, x < v := by
  induction l with
  | nil => simp [lowerIdx]
  | cons x xs ih =>
    by_cases h : v ≤ x
    · simp only [lowerIdx, if_pos h, List.length_cons]
      constructor
      · intro h0
        exact absurd h0.symm (Nat.succ_ne_zero _)
      · intro hall
        exact absurd h (Nat.not_le_of_lt (hall x (List.mem_cons_self x xs)))
    · simp only [lowerIdx, if_neg h, List.length_cons]
      have hx : x < v := Nat.lt_of_not_le h
      constructor
      · intro he y hy
        rcases List.mem_cons.mp hy with e | e
        · exact e ▸ hx
        · exact ih.mp (by omega) y e
      · intro hall
        have := ih.mpr (fun y hy => hall y (List.mem_cons_of_mem x hy))
        omega

theorem lowerIdx_lt_length_iff (l : List Nat) (v : Nat) :
    lowerIdx l v < l.length ↔ ∃ x ∈ l, v ≤ x := by
  constructor
  · intro h
    by_contra hc
    push_neg at hc
    have hall : ∀ x ∈ l, x < v := fun x hx => by
      have := hc x hx
      omega
    rw [(lowerIdx_eq_length_iff l v).mpr hall] at h
    exact Nat.lt_irrefl _ h
  · intro ⟨x, hx, hvx⟩
    rcases Nat.lt_or_ge (lowerIdx l v) l.length with h | h
    · exact h
    · exfalso
      have he : lowerIdx l v = l.length :=
        Nat.le_antisymm (lowerIdx_le_length l v) h
      exact Nat.not_le_of_lt ((lowerIdx_eq_length_iff l v).mp he x hx) hvx

theorem getD_lowerIdx_mem (l : List Nat) (v : Nat) (h : lowerIdx l v < l.length) :
    l.getD (lowerIdx l v) 0 ∈ l ∧ v ≤ l.getD (lowerIdx l v) 0 := by
  induction l with
  | nil => simp at h
  | cons x xs ih =>
    by_cases hx : v ≤ x
    · simp [lowerIdx, hx]
    · simp only [lowerIdx, if_neg hx, List.getD_cons_succ]
      have hlt : lowerIdx xs v < xs.length := by
        simpa [lowerIdx, hx] using h
      rcases ih hlt with ⟨hm, hv⟩
      exact ⟨List.mem_cons_of_mem x hm, hv⟩

/-- The property C2 reads off the binary search: the smallest Position Index
entry that is `≥ h`. -/
def IsLeastGE (l : List Nat) (h p : Nat) : Prop :=
  p ∈ l ∧ h ≤ p ∧ ∀ x ∈ l, h ≤ x → p ≤ x

theorem isLeastGE_unique {l : List Nat} {h p q : Nat}
    (hp : IsLeastGE l h p) (hq : IsLeastGE l h q) : p = q :=
  Nat.le_antisymm (hp.2.2 q hq.1 hq.2.1) (hq.2.2 p hp.1 hp.2.1)

theorem lowerIdx_isLeastGE (l : List Nat) (v : Nat) (hs : l.Sorted (· ≤ ·))
    (h : lowerIdx l v < l.length) : IsLeastGE l v (l.getD (lowerIdx l v) 0) := by
  induction l with
  | nil => simp at h
  | cons x xs ih =>
    rcases List.sorted_cons.mp hs with ⟨hx_le, hxs⟩
    by_cases hx : v ≤ x
    · refine ⟨by simp [lowerIdx, hx], by simp [lowerIdx, hx], ?_⟩
      intro y hy _
      simp only [lowerIdx, if_pos hx, List.getD_cons_zero]
      rcases List.mem_cons.mp hy with e | e
      · exact Nat.le_of_eq e.symm
      · exact hx_le y e
    · simp only [lowerIdx, if_neg hx, List.getD_cons_succ]
      have hlt : lowerIdx xs v < xs.length := by
        simpa [lowerIdx, hx] using h
      rcases ih hxs hlt with ⟨hm, hv, hleast⟩
      refine ⟨List.mem_cons_of_mem x hm, hv, ?_⟩
      intro y hy hvy
      rcases List.mem_cons.mp hy with e | e
      · exact absurd (e ▸ hvy) hx
      · exact hleast y e hvy

theorem removeSorted_eq_erase (l : List Nat) (v : Nat) (hs : l.Sorted (· ≤ ·))
    (hv : v ∈ l) : removeSorted l v = l.erase v := by
  induction l with
  | nil => simp at hv
  | cons x xs ih =>
    rcases List.sorted_cons.mp hs with ⟨hx_le, hxs⟩
    by_cases hx : v ≤ x
    · have hxv : x = v := by
        rcases List.mem_cons.mp hv with e | e
        · exact e.symm
        · exact Nat.le_antisymm (hx_le v e) hx
      subst hxv
      simp [removeSorted, lowerIdx, List.eraseIdx, List.erase_cons_head]
    · have hvx : v ≠ x := fun e => hx (Nat.le_of_eq e)
      have hvxs : v ∈ xs := by
        rcases List.mem_cons.mp hv with e | e
        · exact absurd e hvx
        · exact e
      have hxv' : ¬ x = v := fun e => hvx e.symm
      simp only [removeSorted, lowerIdx, if_neg hx, List.eraseIdx_cons_succ,
        List.erase_cons, beq_iff_eq, if_neg hxv']
      exact congrArg (fun t => x :: t) (ih hxs hvxs)

/-! ## Head and last of sorted lists -/

theorem getLastD_mem (l : List Nat) (hne : l ≠ []) : l.getLastD 0 ∈ l := by
  rw [List.getLastD_eq_getLast?, List.getLast?_eq_getLast l hne]
  exact List.getLast_mem hne

theorem getLastD_cons_ne (x : Nat) (xs : List Nat) (hne : xs ≠ []) :
    (x :: xs).getLastD 0 = xs.getLastD 0 := by
  cases xs with
  | nil => exact absurd rfl hne
  | cons y ys =>
    rw [List.getLastD_eq_getLast?, List.getLastD_eq_getLast?, List.getLast?_cons_cons]

theorem sorted_le_getLastD (l : List Nat) (hs : l.Sorted (· ≤ ·)) :
    ∀ x ∈ l, x ≤ l.getLastD 0 := by
  induction l with
  | nil => simp
  | cons x xs ih =>
    rcases List.sorted_cons.mp hs with ⟨hx_le, hxs⟩
    intro y hy
    cases xs with
    | nil =>
      rcases List.mem_cons.mp hy with e | e
      · simp [e]
      · simp at e
    | cons z zs =>
      have hne : (z :: zs) ≠ [] := by simp
      rw [getLastD_cons_ne x (z :: zs) hne]
      rcases List.mem_cons.mp hy with e | e
      · exact e ▸ hx_le _ (getLastD_mem (z :: zs) hne)
      · exact ih hxs y e

theorem getLastD_unique (l : List Nat) (z : Nat) (hs : l.Sorted (· ≤ ·))
    (hz : z ∈ l) (hb : ∀ x ∈ l, x ≤ z) : l.getLastD 0 = z :=
  Nat.le_antisymm (hb _ (getLastD_mem l (List.ne_nil_of_mem hz)))
    (sorted_le_getLastD l hs z hz)

theorem getD_zero_mem (l : List Nat) (hne : l ≠ []) : l.getD 0 0 ∈ l := by
  cases l with
  | nil => exact absurd rfl hne
  | cons x xs => simp

theorem sorted_getD_zero_le (l : List Nat) (hs : l.Sorted (· ≤ ·)) :
    ∀ x ∈ l, l.getD 0 0 ≤ x := by
  cases l with
  | nil => simp
  | cons x xs =>
    rcases List.sorted_cons.mp hs with ⟨hx_le, _⟩
    intro y hy
    rcases List.mem_cons.mp hy with e | e
    · simp [e]
    · simpa using hx_le y e

theorem getD_zero_unique (l : List Nat) (z : Nat) (hs : l.Sorted (· ≤ ·))
    (hz : z ∈ l) (hb : ∀ x ∈ l, z ≤ x) : l.getD 0 0 = z :=
  Nat.le_antisymm (sorted_getD_zero_le l hs z hz)
    (hb _ (getD_zero_mem l (List.ne_nil_of_mem hz)))

theorem getD_length_sub_one (l : List Nat) (hne : l ≠ []) :
    l.getD (l.length - 1) 0 = l.getLastD 0 := by
  induction l with
  | nil => exact absurd rfl hne
  | cons x xs ih =>
    cases hxs : xs with
    | nil => simp [hxs]
    | cons y ys =>
      subst hxs
      have hne' : (y :: ys) ≠ [] := by simp
      rw [getLastD_cons_ne x _ hne']
      have hlen : (x :: y :: ys).length - 1 = (y :: ys).length - 1 + 1 := by
        simp [List.length_cons]
      rw [hlen, List.getD_cons_succ]
      exact ih hne'

theorem getD_eq_getLastD_iff (l : List Nat) (i : Nat) (hs : l.Sorted (· < ·))
    (hi : i < l.length) : l.getD i 0 = l.getLastD 0 ↔ i = l.length - 1 := by
  constructor
  · intro he
    by_contra hne
    have hne0 : l ≠ [] := by
      intro e
      rw [e] at hi
      simp at hi
    have hilt : i < l.length - 1 := by omega
    have hlast : l.length - 1 < l.length := by omega
    have := List.pairwise_iff_get.mp hs ⟨i, hi⟩ ⟨l.length - 1, hlast⟩ hilt
    rw [List.get_eq_getElem, List.get_eq_getElem, ← List.getD_eq_getElem l 0 hi,
      ← List.getD_eq_getElem l 0 hlast, getD_length_sub_one l hne0] at this
    rw [he] at this
    exact Nat.lt_irrefl _ this
  · intro he
    have hne0 : l ≠ [] := by
      intro e
      rw [e] at hi
      simp at hi
    rw [he]
    exact getD_length_sub_one l hne0

/-! ## The value `getPosition` selects -/

/-- The ring position `GetNode` reads: the Position Index entry at the index
`getPosition` returns. -/
def resolvePos (l : List Nat) (h : Nat) : Nat :=
  l.getD (getPositionL l h) 0

theorem getPositionL_lt_length (l : List Nat) (h : Nat) (hne : l ≠ []) :
    getPositionL l h < l.length := by
  have hpos : 0 < l.length := List.length_pos.mpr hne
  unfold getPositionL
  by_cases hlt : lowerIdx l h < l.length
  · rw [if_pos hlt]
    by_cases hl : lowerIdx l h = l.length - 1
    · rw [if_pos hl]
      exact hpos
    · rw [if_neg hl]
      exact hlt
  · rw [if_neg hlt]
    omega

theorem resolvePos_all_lt (l : List Nat) (h : Nat) (hne : l ≠ [])
    (hall : ∀ x ∈ l, x < h) : resolvePos l h = l.getLastD 0 := by
  have he : lowerIdx l h = l.length := (lowerIdx_eq_length_iff l h).mpr hall
  have hnl : ¬ lowerIdx l h < l.length := by omega
  unfold resolvePos getPositionL
  rw [if_neg hnl]
  exact getD_length_sub_one l hne

theorem resolvePos_least_ne_last (l : List Nat) (h p : Nat) (hs : l.Sorted (· < ·))
    (hp : IsLeastGE l h p) (hne_last : p ≠ l.getLastD 0) : resolvePos l h = p := by
  have hlt : lowerIdx l h < l.length :=
    (lowerIdx_lt_length_iff l h).mpr ⟨p, hp.1, hp.2.1⟩
  have hval : l.getD (lowerIdx l h) 0 = p :=
    isLeastGE_unique (lowerIdx_isLeastGE l h hs.le_of_lt hlt) hp
  have hni : lowerIdx l h ≠ l.length - 1 := by
    intro e
    apply hne_last
    rw [← hval]
    exact (getD_eq_getLastD_iff l (lowerIdx l h) hs hlt).mpr e
  unfold resolvePos getPositionL
  rw [if_pos hlt, if_neg hni]
  exact hval

theorem resolvePos_least_eq_last (l : List Nat) (h p : Nat) (hs : l.Sorted (· < ·))
    (hp : IsLeastGE l h p) (heq : p = l.getLastD 0) : resolvePos l h = l.getD 0 0 := by
  have hlt : lowerIdx l h < l.length :=
    (lowerIdx_lt_length_iff l h).mpr ⟨p, hp.1, hp.2.1⟩
  have hval : l.getD (lowerIdx l h) 0 = p :=
    isLeastGE_unique (lowerIdx_isLeastGE l h hs.le_of_lt hlt) hp
  have hi : lowerIdx l h = l.length - 1 :=
    (getD_eq_getLastD_iff l (lowerIdx l h) hs hlt).mp (hval.trans heq)
  unfold resolvePos getPositionL
  rw [if_pos hlt, if_pos hi]

/-! ## The replica-placement loop -/

theorem findFree_eq_some (circ : List (Nat × String)) (f : String → Nat) (key : String)
    (i k : Nat) (h : findFree circ f key i = some k) :
    ∃ j, j < 3 ∧ k = candidate f key i j ∧ lookupA circ (candidate f key i j) = none ∧
      ∀ j' < j, (lookupA circ (candidate f key i j')).isSome := by
  unfold findFree at h
  by_cases h0 : lookupA circ (candidate f key i 0) = none
  · rw [if_pos h0] at h
    exact ⟨0, by omega, (Option.some.injEq _ _).mp h.symm, h0, fun j' hj' => by omega⟩
  · rw [if_neg h0] at h
    by_cases h1 : lookupA circ (candidate f key i 1) = none
    · rw [if_pos h1] at h
      refine ⟨1, by omega, (Option.some.injEq _ _).mp h.symm, h1, ?_⟩
      intro j' hj'
      have : j' = 0 := by omega
      rw [this]
      exact Option.isSome_iff_ne_none.mpr h0
    · rw [if_neg h1] at h
      by_cases h2 : lookupA circ (candidate f key i 2) = none
      · rw [if_pos h2] at h
        refine ⟨2, by omega, (Option.some.injEq _ _).mp h.symm, h2, ?_⟩
        intro j' hj'
        rcases (by omega : j' = 0 ∨ j' = 1) with e | e <;> rw [e]
        · exact Option.isSome_iff_ne_none.mpr h0
        · exact Option.isSome_iff_ne_none.mpr h1
      · rw [if_neg h2] at h
        exact absurd h (Option.noConfusion)

theorem findFree_fresh (circ : List (Nat × String)) (f : String → Nat) (key : String)
    (i k : Nat) (h : findFree circ f key i = some k) : lookupA circ k = none := by
  rcases findFree_eq_some circ f key i k h with ⟨j, _, hk, hnone, _⟩
  rw [hk]
  exact hnone

theorem placeLoop_some_spec (f : String → Nat) (key : String) :
    ∀ (n : Nat) (circ : List (Nat × String)) (i : Nat) (circ2 : List (Nat × String))
      (ks : List Nat), placeLoop f key circ i n = (circ2, some ks) →
      ks.length = n ∧ ks.Nodup ∧ (∀ k ∈ ks, lookupA circ k = none) ∧
        ∀ p, lookupA circ2 p = if p ∈ ks then some key else lookupA circ p := by
  intro n
  induction n with
  | zero =>
    intro circ i circ2 ks h
    simp only [placeLoop, Prod.mk.injEq, Option.some.injEq] at h
    rcases h with ⟨h1, h2⟩
    subst h1
    subst h2
    exact ⟨rfl, List.nodup_nil, by simp, fun p => by simp⟩
  | succ n ih =>
    intro circ i circ2 ks h
    cases hf : findFree circ f key i with
    | none =>
      rw [placeLoop, hf] at h
      exact absurd ((Prod.mk.injEq _ _ _ _).mp h).2 (Option.noConfusion)
    | some k =>
      rw [placeLoop, hf] at h
      simp only [Prod.mk.injEq] at h
      rcases h with ⟨hc2, hmap⟩
      rcases Option.map_eq_some'.mp hmap with ⟨ks', hks', hcons⟩
      subst hcons
      have hfresh : lookupA circ k = none := findFree_fresh circ f key i k hf
      rcases ih (insertA circ k key) (i + 1) (placeLoop f key (insertA circ k key) (i + 1) n).1
          ks' (by rw [← hks']) with ⟨hlen, hnd, hfr, hlook⟩
      have hkn : k ∉ ks' := by
        intro hm
        have := hfr k hm
        rw [lookupA_insertA_self] at this
        exact Option.noConfusion this
      refine ⟨by simp [hlen], List.nodup_cons.mpr ⟨hkn, hnd⟩, ?_, ?_⟩
      · intro k' hk'
        rcases List.mem_cons.mp hk' with e | e
        · exact e ▸ hfresh
        · have := hfr k' e
          have hne : k' ≠ k := by
            intro hkk
            rw [hkk, lookupA_insertA_self] at this
            exact Option.noConfusion this
          rw [lookupA_insertA_ne circ k k' key hne] at this
          exact this
      · intro p
        rw [← hc2, hlook p]
        by_cases hp : p ∈ ks'
        · simp [hp, List.mem_cons_of_mem k hp]
        · by_cases hpk : p = k
          · rw [if_neg hp, hpk, if_pos (List.mem_cons_self k ks'), lookupA_insertA_self]
          · have hnotin : p ∉ k :: ks' := by
              intro hm
              rcases List.mem_cons.mp hm with e | e
              · exact hpk e
              · exact hp e
            rw [if_neg hp, if_neg hnotin]
            exact lookupA_insertA_ne circ k p key hpk

theorem placeLoop_none_lookup (f : String → Nat) (key : String) :
    ∀ (n : Nat) (circ : List (Nat × String)) (i : Nat) (circ2 : List (Nat × String)),
      placeLoop f key circ i n = (circ2, none) →
      ∀ p, (lookupA circ p).isSome → lookupA circ2 p = lookupA circ p := by
  intro n
  induction n with
  | zero =>
    intro circ i circ2 h
    simp only [placeLoop, Prod.mk.injEq] at h
    exact absurd h.2 (Option.noConfusion)
  | succ n ih =>
    intro circ i circ2 h
    cases hf : findFree circ f key i with
    | none =>
      rw [placeLoop, hf] at h
      rcases (Prod.mk.injEq _ _ _ _).mp h with ⟨h1, _⟩
      subst h1
      exact fun p _ => rfl
    | some k =>
      rw [placeLoop, hf] at h
      simp only [Prod.mk.injEq] at h
      rcases h with ⟨hc2, hmap⟩
      have hr2 : (placeLoop f key (insertA circ k key) (i + 1) n).2 = none :=
        Option.map_eq_none'.mp hmap
      have hfresh : lookupA circ k = none := findFree_fresh circ f key i k hf
      intro p hp
      have hpk : p ≠ k := by
        intro e
        rw [e, hfresh] at hp
        simp at hp
      have hp' : (lookupA (insertA circ k key) p).isSome := by
        rw [lookupA_insertA_ne circ k p key hpk]
        exact hp
      have := ih (insertA circ k key) (i + 1)
        (placeLoop f key (insertA circ k key) (i + 1) n).1
        (by rw [← hr2]) p hp'
      rw [← hc2, this, lookupA_insertA_ne circ k p key hpk]

/-- The Position Map as it stands when the replica after the prefix `ks` is
attempted: the original circle plus one insertion per already-placed
replica. -/
def insertPairs (circ : List (Nat × String)) (ks : List Nat) (key : String) :
    List (Nat × String) :=
  ks.foldl (fun m k => insertA m k key) circ

theorem placeLoop_replica_spec (f : String → Nat) (key : String) :
    ∀ (n : Nat) (circ : List (Nat × String)) (i : Nat) (circ2 : List (Nat × String))
      (ks : List Nat), placeLoop f key circ i n = (circ2, some ks) →
      ∀ t, t < n →
        ∃ j, j < 3 ∧ ks.getD t 0 = candidate f key (i + t) j ∧
          lookupA (insertPairs circ (ks.take t) key) (candidate f key (i + t) j) = none ∧
          ∀ j' < j,
            (lookupA (insertPairs circ (ks.take t) key) (candidate f key (i + t) j')).isSome := by
  intro n
  induction n with
  | zero =>
    intro circ i circ2 ks _ t ht
    omega
  | succ n ih =>
    intro circ i circ2 ks h t ht
    cases hf : findFree circ f key i with
    | none =>
      rw [placeLoop, hf] at h
      exact absurd ((Prod.mk.injEq _ _ _ _).mp h).2 (Option.noConfusion)
    | some k =>
      rw [placeLoop, hf] at h
      simp only [Prod.mk.injEq] at h
      rcases h with ⟨hc2, hmap⟩
      rcases Option.map_eq_some'.mp hmap with ⟨ks', hks', hcons⟩
      subst hcons
      cases t with
      | zero =>
        rcases findFree_eq_some circ f key i k hf with ⟨j, hj, hk, hnone, hbusy⟩
        refine ⟨j, hj, ?_, ?_, ?_⟩
        · simpa [Nat.add_zero] using hk
        · simpa [insertPairs, Nat.add_zero] using hnone
        · intro j' hj'
          simpa [insertPairs, Nat.add_zero] using hbusy j' hj'
      | succ t =>
        have ht' : t < n := by omega
        have hrec := ih (insertA circ k key) (i + 1)
          (placeLoop f key (insertA circ k key) (i + 1) n).1 ks' (by rw [← hks']) t ht'
        rcases hrec with ⟨j, hj, hval, hnone, hbusy⟩
        have harith : i + 1 + t = i + (t + 1) := by omega
        refine ⟨j, hj, ?_, ?_, ?_⟩
        · rw [List.getD_cons_succ, hval, harith]
        · rw [List.take_succ_cons]
          rw [harith] at hnone
          simpa [insertPairs] using hnone
        · intro j' hj'
          rw [List.take_succ_cons]
          rw [harith] at hbusy
          simpa [insertPairs] using hbusy j' hj'

/-- Inversion of a successful `AddWithVirtualNode` into its three state
updates. -/
theorem add_success_inv (c : ConsistentHash) (nd : GoNode) (v : Nat)
    (h : (AddWithVirtualNode c (some nd) v).2 = none) :
    ¬ v < 1 ∧ lookupA c.nodes nd.key = none ∧
    ∃ circ2 ks,
      placeLoop (c.hash.getD crc32IEEE) nd.key c.circle 0 v = (circ2, some ks) ∧
      (AddWithVirtualNode c (some nd) v).1 =
        { hashSortedNodes := (c.hashSortedNodes ++ ks).insertionSort (· ≤ ·),
          circle := circ2,
          nodes := insertA c.nodes nd.key ⟨nd, ks⟩,
          hash := some (c.hash.getD crc32IEEE) } := by
  by_cases hv : v < 1
  · simp [AddWithVirtualNode, hv] at h
  · by_cases hd : (lookupA c.nodes nd.key).isSome
    · simp [AddWithVirtualNode, hv, hd] at h
    · have hd' : lookupA c.nodes nd.key = none := Option.not_isSome_iff_eq_none.mp hd
      rcases hpl : placeLoop (c.hash.getD crc32IEEE) nd.key c.circle 0 v with ⟨circ2, r⟩
      cases r with
      | none =>
        rw [AddWithVirtualNode] at h
        simp only [hv, if_false, hd, Bool.false_eq_true] at h
        rw [hpl] at h
        simp at h
      | some ks =>
        refine ⟨hv, hd', circ2, ks, rfl, ?_⟩
        rw [AddWithVirtualNode]
        simp only [hv, if_false, hd, Bool.false_eq_true]
        rw [hpl]

/-! ## The ring invariant -/

/-- Total number of virtual replicas of all registered nodes. -/
def sumCounts (m : List (String × ConsistentNode)) : Nat :=
  (m.map (fun p => p.2.virtualNodes.length)).sum

theorem sumCounts_insert_fresh (m : List (String × ConsistentNode)) (k : String)
    (e : ConsistentNode) (h : lookupA m k = none) :
    sumCounts (insertA m k e) = e.virtualNodes.length + sumCounts m := by
  rw [insertA_eq_cons_of_lookupA_none m k e h]
  simp [sumCounts]

theorem lookupA_le_sumCounts (m : List (String × ConsistentNode)) (k : String)
    (e : ConsistentNode) (h : lookupA m k = some e) :
    e.virtualNodes.length ≤ sumCounts m := by
  induction m with
  | nil => simp [lookupA] at h
  | cons q m ih =>
    by_cases hq : q.1 = k
    · rw [lookupA, if_pos hq] at h
      rw [(Option.some.injEq _ _).mp h.symm]
      simp [sumCounts]
    · rw [lookupA, if_neg hq] at h
      have := ih h
      simp [sumCounts] at this ⊢
      omega

theorem sumCounts_erase (m : List (String × ConsistentNode)) (k : String)
    (e : ConsistentNode) (hnd : (m.map Prod.fst).Nodup) (h : lookupA m k = some e) :
    sumCounts (eraseA m k) = sumCounts m - e.virtualNodes.length := by
  induction m with
  | nil => simp [lookupA] at h
  | cons q m ih =>
    rw [List.map_cons] at hnd
    rcases List.nodup_cons.mp hnd with ⟨hq_out, hnd'⟩
    by_cases hq : q.1 = k
    · rw [lookupA, if_pos hq] at h
      have he : e = q.2 := (Option.some.injEq _ _).mp h.symm
      have hnone : lookupA m k = none := by
        apply Option.not_isSome_iff_eq_none.mp
        rw [lookupA_isSome_iff]
        rw [← hq]
        exact hq_out
      rw [eraseA, if_pos hq, eraseA_eq_self_of_lookupA_none m k hnone, he]
      simp [sumCounts]
    · rw [lookupA, if_neg hq] at h
      have hle := lookupA_le_sumCounts m k e h
      have hrec := ih hnd' h
      rw [eraseA, if_neg hq]
      have hg1 : sumCounts (q :: eraseA m k) =
          q.2.virtualNodes.length + sumCounts (eraseA m k) := by
        simp [sumCounts]
      have hg2 : sumCounts (q :: m) = q.2.virtualNodes.length + sumCounts m := by
        simp [sumCounts]
      rw [hg1, hg2, hrec]
      omega

theorem eraseA_map_fst_nodup {κ β : Type} [DecidableEq κ] (m : List (κ × β)) (k : κ)
    (h : (m.map Prod.fst).Nodup) : ((eraseA m k).map Prod.fst).Nodup :=
  ((eraseA_sublist m k).map Prod.fst).nodup h

theorem lookupA_ne_nil {κ β : Type} [DecidableEq κ] (m : List (κ × β)) (k : κ)
    (e : β) (h : lookupA m k = some e) : m ≠ [] := by
  intro hm
  rw [hm] at h
  exact Option.noConfusion h

/-- The fold of binary-search deletions is `List.diff`. -/
theorem foldl_removeSorted_eq_diff (ks : List Nat) :
    ∀ (m : List Nat), m.Sorted (· ≤ ·) → (∀ v ∈ ks, v ∈ m) → ks.Nodup →
      ks.foldl (fun l v => removeSorted l v) m = m.diff ks := by
  induction ks with
  | nil => intro m _ _ _; simp
  | cons k ks ih =>
    intro m hs hmem hnd
    rcases List.nodup_cons.mp hnd with ⟨hk_out, hnd'⟩
    have hkm : k ∈ m := hmem k (List.mem_cons_self k ks)
    have h1 : removeSorted m k = m.erase k := removeSorted_eq_erase m k hs hkm
    rw [List.foldl_cons, h1, List.diff_cons]
    apply ih (m.erase k)
    · exact List.Pairwise.sublist (List.erase_sublist k m) hs
    · intro v hv
      have hvk : v ≠ k := fun e => hk_out (by rw [← e]; exact hv)
      exact (List.mem_erase_of_ne hvk).mpr (hmem v (List.mem_cons_of_mem k hv))
    · exact hnd'

theorem length_diff_of_subset (ks : List Nat) :
    ∀ (m : List Nat), (∀ v ∈ ks, v ∈ m) → ks.Nodup →
      (m.diff ks).length = m.length - ks.length := by
  induction ks with
  | nil => intro m _ _; simp
  | cons k ks ih =>
    intro m hmem hnd
    rcases List.nodup_cons.mp hnd with ⟨hk_out, hnd'⟩
    have hkm : k ∈ m := hmem k (List.mem_cons_self k ks)
    rw [List.diff_cons]
    have hrec := ih (m.erase k)
      (fun v hv => (List.mem_erase_of_ne (fun e => hk_out (by rw [← e]; exact hv))).mpr
        (hmem v (List.mem_cons_of_mem k hv))) hnd'
    rw [hrec, List.length_erase_of_mem hkm]
    have : 0 < m.length := List.length_pos.mpr (List.ne_nil_of_mem hkm)
    simp [List.length_cons]
    omega

theorem mem_diff_iff (m ks : List Nat) (hm : m.Nodup) (p : Nat) :
    p ∈ m.diff ks ↔ p ∈ m ∧ p ∉ ks := by
  rw [List.Nodup.diff_eq_filter hm, List.mem_filter]
  simp

/-- The invariant every reachable ring state satisfies. -/
structure Inv (c : ConsistentHash) : Prop where
  sorted : c.hashSortedNodes.Sorted (· < ·)
  nodesKeys : (c.nodes.map Prod.fst).Nodup
  hashSet : c.nodes ≠ [] → c.hash.isSome
  idxOwner : ∀ p ∈ c.hashSortedNodes, ∃ k e, lookupA c.circle p = some k ∧
    lookupA c.nodes k = some e ∧ p ∈ e.virtualNodes
  entryOwner : ∀ k e, lookupA c.nodes k = some e → e.node.key = k ∧
    e.virtualNodes ≠ [] ∧ e.virtualNodes.Nodup ∧
    ∀ p ∈ e.virtualNodes, p ∈ c.hashSortedNodes ∧ lookupA c.circle p = some k
  lenEq : c.hashSortedNodes.length = sumCounts c.nodes

/-- The states reachable from a freshly constructed ring by any sequence of
`Add` and `Remove` calls, successful or failed. -/
inductive Reachable : ConsistentHash → Prop where
  | new : Reachable NewConsistentHash
  | newCustom (h : String → Nat) : Reachable (NewConsistentWithCustomHash h)
  | add (c : ConsistentHash) (node : Option GoNode) (v : Nat) :
      Reachable c → Reachable (AddWithVirtualNode c node v).1
  | remove (c : ConsistentHash) (node : GoNode) :
      Reachable c → Reachable (Remove c node).1

/-! ## Invariant preservation -/

theorem remove_not_found (c : ConsistentHash) (nd : GoNode)
    (h : lookupA c.nodes nd.key = none) :
    Remove c nd = (c, some ("node " ++ nd.key ++ " not exist")) := by
  rw [Remove, h]

theorem remove_success_inv (c : ConsistentHash) (nd : GoNode) (e : ConsistentNode)
    (he : lookupA c.nodes nd.key = some e) :
    Remove c nd =
      ({ hashSortedNodes :=
           e.virtualNodes.foldl (fun l v => removeSorted l v) c.hashSortedNodes,
         circle := e.virtualNodes.foldl (fun m v => eraseA m v) c.circle,
         nodes := eraseA c.nodes nd.key,
         hash := c.hash }, none) := by
  rw [Remove, he]

theorem inv_remove (c : ConsistentHash) (nd : GoNode) (h : Inv c) :
    Inv (Remove c nd).1 := by
  cases he : lookupA c.nodes nd.key with
  | none =>
    rw [remove_not_found c nd he]
    exact h
  | some e =>
    rw [remove_success_inv c nd e he]
    rcases h.entryOwner nd.key e he with ⟨hekey, hSne, hSnd, hpos⟩
    have hsub : ∀ v ∈ e.virtualNodes, v ∈ c.hashSortedNodes := fun v hv => (hpos v hv).1
    have hidx : e.virtualNodes.foldl (fun l v => removeSorted l v) c.hashSortedNodes =
        c.hashSortedNodes.diff e.virtualNodes :=
      foldl_removeSorted_eq_diff e.virtualNodes c.hashSortedNodes h.sorted.le_of_lt hsub hSnd
    have hmem : ∀ p, p ∈ c.hashSortedNodes.diff e.virtualNodes ↔
        p ∈ c.hashSortedNodes ∧ p ∉ e.virtualNodes :=
      mem_diff_iff c.hashSortedNodes e.virtualNodes h.sorted.nodup
    have hS_of_owner : ∀ p, lookupA c.circle p = some nd.key → p ∈ c.hashSortedNodes →
        p ∈ e.virtualNodes := by
      intro p hc hp
      rcases h.idxOwner p hp with ⟨k, e', hc', hn', hm'⟩
      have hk : k = nd.key := by
        rw [hc] at hc'
        exact ((Option.some.injEq _ _).mp hc').symm
      subst hk
      have hee : e' = e := by
        rw [he] at hn'
        exact ((Option.some.injEq _ _).mp hn').symm
      exact hee ▸ hm'
    have hcircle_off : ∀ p, p ∉ e.virtualNodes →
        lookupA (e.virtualNodes.foldl (fun m v => eraseA m v) c.circle) p =
          lookupA c.circle p :=
      fun p hp => lookupA_foldl_eraseA_not_mem c.circle e.virtualNodes p hp
    refine ⟨?_, ?_, ?_, ?_, ?_, ?_⟩
    · rw [hidx]
      exact List.Pairwise.sublist (List.diff_sublist _ _) h.sorted
    · exact eraseA_map_fst_nodup c.nodes nd.key h.nodesKeys
    · intro hne2
      apply h.hashSet
      intro he0
      apply hne2
      show eraseA c.nodes nd.key = []
      rw [he0]
      rfl
    · intro p hp
      rw [hidx] at hp
      rcases (hmem p).mp hp with ⟨hpm, hpS⟩
      rcases h.idxOwner p hpm with ⟨k, e', hc', hn', hm'⟩
      have hkX : k ≠ nd.key := by
        intro ekey
        exact hpS (hS_of_owner p (ekey ▸ hc') hpm)
      refine ⟨k, e', ?_, ?_, hm'⟩
      · rw [hcircle_off p hpS]
        exact hc'
      · show lookupA (eraseA c.nodes nd.key) k = some e'
        rw [lookupA_eraseA_ne c.nodes nd.key k hkX]
        exact hn'
    · intro k e2 hk
      have hkX : k ≠ nd.key := by
        intro ekey
        rw [ekey] at hk
        rw [show lookupA (eraseA c.nodes nd.key) nd.key = none from
          lookupA_eraseA_self c.nodes nd.key] at hk
        exact Option.noConfusion hk
      rw [show (lookupA (eraseA c.nodes nd.key) k : Option ConsistentNode) =
        lookupA c.nodes k from lookupA_eraseA_ne c.nodes nd.key k hkX] at hk
      rcases h.entryOwner k e2 hk with ⟨q1, q2, q3, q4⟩
      refine ⟨q1, q2, q3, ?_⟩
      intro p hp2
      have hpm := (q4 p hp2).1
      have hco := (q4 p hp2).2
      have hpS : p ∉ e.virtualNodes := by
        intro hmemS
        have hX := (hpos p hmemS).2
        rw [hco] at hX
        exact hkX ((Option.some.injEq _ _).mp hX)
      constructor
      · rw [hidx]
        exact (hmem p).mpr ⟨hpm, hpS⟩
      · rw [hcircle_off p hpS]
        exact hco
    · show (e.virtualNodes.foldl (fun l v => removeSorted l v) c.hashSortedNodes).length =
        sumCounts (eraseA c.nodes nd.key)
      rw [hidx, length_diff_of_subset e.virtualNodes c.hashSortedNodes hsub hSnd,
        sumCounts_erase c.nodes nd.key e h.nodesKeys he, h.lenEq]

theorem inv_add (c : ConsistentHash) (node : Option GoNode) (v : Nat) (h : Inv c) :
    Inv (AddWithVirtualNode c node v).1 := by
  cases node with
  | none => exact h
  | some nd =>
    by_cases hv : v < 1
    · have hstate : (AddWithVirtualNode c (some nd) v).1 = c := by
        simp [AddWithVirtualNode, hv]
      rw [hstate]
      exact h
    · by_cases hd : (lookupA c.nodes nd.key).isSome
      · have hstate : (AddWithVirtualNode c (some nd) v).1 =
            { c with hash := some (c.hash.getD crc32IEEE) } := by
          simp [AddWithVirtualNode, hv, hd]
        rw [hstate]
        exact ⟨h.sorted, h.nodesKeys, fun _ => rfl, h.idxOwner, h.entryOwner, h.lenEq⟩
      · have hd' : lookupA c.nodes nd.key = none := Option.not_isSome_iff_eq_none.mp hd
        rcases hpl : placeLoop (c.hash.getD crc32IEEE) nd.key c.circle 0 v with ⟨circ2, r⟩
        cases r with
        | none =>
          have hstate : (AddWithVirtualNode c (some nd) v).1 =
              { c with hash := some (c.hash.getD crc32IEEE), circle := circ2 } := by
            rw [AddWithVirtualNode]
            simp only [hv, if_false, hd, Bool.false_eq_true]
            rw [hpl]
          rw [hstate]
          have hpres : ∀ p, (lookupA c.circle p).isSome → lookupA circ2 p = lookupA c.circle p :=
            placeLoop_none_lookup (c.hash.getD crc32IEEE) nd.key v c.circle 0 circ2 hpl
          refine ⟨h.sorted, h.nodesKeys, fun _ => rfl, ?_, ?_, h.lenEq⟩
          · intro p hp
            rcases h.idxOwner p hp with ⟨k, e, hc, hn, hm⟩
            refine ⟨k, e, ?_, hn, hm⟩
            show lookupA circ2 p = some k
            rw [hpres p (by rw [hc]; rfl)]
            exact hc
          · intro k e hk
            rcases h.entryOwner k e hk with ⟨q1, q2, q3, q4⟩
            refine ⟨q1, q2, q3, ?_⟩
            intro p hp2
            refine ⟨(q4 p hp2).1, ?_⟩
            show lookupA circ2 p = some k
            rw [hpres p (by rw [(q4 p hp2).2]; rfl)]
            exact (q4 p hp2).2
        | some ks =>
          have hstate : (AddWithVirtualNode c (some nd) v).1 =
              { hashSortedNodes := (c.hashSortedNodes ++ ks).insertionSort (· ≤ ·),
                circle := circ2,
                nodes := insertA c.nodes nd.key ⟨nd, ks⟩,
                hash := some (c.hash.getD crc32IEEE) } := by
            rw [AddWithVirtualNode]
            simp only [hv, if_false, hd, Bool.false_eq_true]
            rw [hpl]
          rw [hstate]
          rcases placeLoop_some_spec (c.hash.getD crc32IEEE) nd.key v c.circle 0 circ2 ks hpl
            with ⟨hlen, hksnd, hfresh, hlook⟩
          have hdisj : ∀ p ∈ c.hashSortedNodes, p ∉ ks := by
            intro p hp hmemks
            rcases h.idxOwner p hp with ⟨k, e, hc, _, _⟩
            have := hfresh p hmemks
            rw [hc] at this
            exact Option.noConfusion this
          have hperm : List.Perm ((c.hashSortedNodes ++ ks).insertionSort (· ≤ ·))
              (c.hashSortedNodes ++ ks) := List.perm_insertionSort _ _
          have hmem2 : ∀ p, p ∈ (c.hashSortedNodes ++ ks).insertionSort (· ≤ ·) ↔
              p ∈ c.hashSortedNodes ∨ p ∈ ks := by
            intro p
            rw [hperm.mem_iff, List.mem_append]
          have happ_nodup : (c.hashSortedNodes ++ ks).Nodup :=
            List.nodup_append.mpr ⟨h.sorted.nodup, hksnd, fun a ha hb => hdisj a ha hb⟩
          have hkeyfresh : nd.key ∉ c.nodes.map Prod.fst := by
            intro hmem
            exact hd ((lookupA_isSome_iff c.nodes nd.key).mpr hmem)
          have hknez : ks ≠ [] := by
            have : 0 < ks.length := by omega
            exact List.length_pos.mp this
          refine ⟨?_, ?_, fun _ => rfl, ?_, ?_, ?_⟩
          · exact List.Sorted.lt_of_le (List.sorted_insertionSort _ _) (hperm.symm.nodup happ_nodup)
          · show ((insertA c.nodes nd.key ⟨nd, ks⟩).map Prod.fst).Nodup
            rw [insertA_eq_cons_of_lookupA_none c.nodes nd.key _ hd', List.map_cons]
            exact List.nodup_cons.mpr ⟨hkeyfresh, h.nodesKeys⟩
          · intro p hp
            rcases (hmem2 p).mp hp with hpi | hpk
            · rcases h.idxOwner p hpi with ⟨k, e, hc, hn, hm⟩
              have hkne : k ≠ nd.key := by
                intro ekey
                rw [ekey, hd'] at hn
                exact Option.noConfusion hn
              refine ⟨k, e, ?_, ?_, hm⟩
              · show lookupA circ2 p = some k
                rw [hlook p, if_neg (hdisj p hpi)]
                exact hc
              · show lookupA (insertA c.nodes nd.key ⟨nd, ks⟩) k = some e
                rw [lookupA_insertA_ne c.nodes nd.key k _ hkne]
                exact hn
            · refine ⟨nd.key, ⟨nd, ks⟩, ?_, ?_, hpk⟩
              · show lookupA circ2 p = some nd.key
                rw [hlook p, if_pos hpk]
              · exact lookupA_insertA_self c.nodes nd.key _
          · intro k e hk
            by_cases hke : k = nd.key
            · subst hke
              rw [lookupA_insertA_self c.nodes nd.key _] at hk
              have he : e = ⟨nd, ks⟩ := ((Option.some.injEq _ _).mp hk).symm
              subst he
              refine ⟨rfl, hknez, hksnd, ?_⟩
              intro p hp2
              constructor
              · exact (hmem2 p).mpr (Or.inr hp2)
              · show lookupA circ2 p = some nd.key
                rw [hlook p, if_pos hp2]
            · rw [lookupA_insertA_ne c.nodes nd.key k _ hke] at hk
              rcases h.entryOwner k e hk with ⟨q1, q2, q3, q4⟩
              refine ⟨q1, q2, q3, ?_⟩
              intro p hp2
              constructor
              · exact (hmem2 p).mpr (Or.inl (q4 p hp2).1)
              · show lookupA circ2 p = some k
                rw [hlook p, if_neg (hdisj p (q4 p hp2).1)]
                exact (q4 p hp2).2
          · show ((c.hashSortedNodes ++ ks).insertionSort (· ≤ ·)).length =
              sumCounts (insertA c.nodes nd.key ⟨nd, ks⟩)
            rw [hperm.length_eq, List.length_append,
              sumCounts_insert_fresh c.nodes nd.key _ hd', h.lenEq]
            show sumCounts c.nodes + ks.length = ks.length + sumCounts c.nodes
            omega

theorem inv_new : Inv NewConsistentHash := by
  refine ⟨?_, ?_, ?_, ?_, ?_, ?_⟩ <;> simp [NewConsistentHash, lookupA, sumCounts]

theorem inv_newCustom (f : String → Nat) : Inv (NewConsistentWithCustomHash f) := by
  refine ⟨?_, ?_, ?_, ?_, ?_, ?_⟩ <;> simp [NewConsistentWithCustomHash, lookupA, sumCounts]

/-- Every reachable state satisfies the invariant. -/
theorem reachable_inv (c : ConsistentHash) (h : Reachable c) : Inv c := by
  induction h with
  | new => exact inv_new
  | newCustom f => exact inv_newCustom f
  | add c node v _ ih => exact inv_add c node v ih
  | remove c node _ ih => exact inv_remove c node ih

/-! ## Resolution helpers -/

theorem resolvePos_mem (l : List Nat) (h : Nat) (hne : l ≠ []) : resolvePos l h ∈ l := by
  unfold resolvePos
  rw [List.getD_eq_getElem l 0 (getPositionL_lt_length l h hne)]
  exact List.getElem_mem _

/-- Computing `GetNode` once the two map lookups at the selected position are
known. -/
theorem getNode_eq_of_lookups (c : ConsistentHash) (f : String → Nat) (key : String)
    (k : String) (e : ConsistentNode) (hf : c.hash = some f) (hnodes : c.nodes ≠ [])
    (hc : lookupA c.circle (resolvePos c.hashSortedNodes (hashVal f key)) = some k)
    (hn : lookupA c.nodes k = some e) : GetNode c key = Except.ok (some e.node) := by
  have hlen0 : ¬ c.nodes.length = 0 := by
    simpa [List.length_eq_zero] using hnodes
  rw [GetNode, if_neg hlen0, hf]
  show Except.ok ((lookupA c.nodes ((lookupA c.circle
      (c.hashSortedNodes.getD (getPosition c (hashVal f key)) 0)).getD "")).map
      (fun cn => cn.node)) = Except.ok (some e.node)
  have hrp : c.hashSortedNodes.getD (getPosition c (hashVal f key)) 0 =
      resolvePos c.hashSortedNodes (hashVal f key) := rfl
  rw [hrp, hc]
  show Except.ok ((lookupA c.nodes k).map (fun cn => cn.node)) = Except.ok (some e.node)
  rw [hn]
  rfl

theorem goNode_ne_key {X Y : GoNode} (h : X ≠ Y) : X.key ≠ Y.key := by
  intro e
  apply h
  cases X
  cases Y
  simpa using e

theorem append_diff_self (ks : List Nat) : ∀ (l : List Nat), (ks ++ l).diff ks = l := by
  induction ks with
  | nil => intro l; simp
  | cons k ks ih =>
    intro l
    rw [List.cons_append, List.diff_cons, List.erase_cons_head]
    exact ih l

/-! ## Claim theorems -/

/-- C4: in every reachable ring state with at least one registered node,
`GetNode` (Resolve) succeeds for every key and returns a non-nil node whose
key is present in the Node Registry. -/
theorem getNode_coverage (c : ConsistentHash) (hr : Reachable c) (hne : c.nodes ≠ [])
    (key : String) :
    ∃ n e, GetNode c key = Except.ok (some n) ∧ lookupA c.nodes n.key = some e ∧
      e.node = n := by
  have hInv := reachable_inv c hr
  rcases Option.isSome_iff_exists.mp (hInv.hashSet hne) with ⟨f, hf⟩
  rcases List.exists_mem_of_ne_nil c.nodes hne with ⟨q, hq⟩
  have hq1 : (lookupA c.nodes q.1).isSome :=
    (lookupA_isSome_iff c.nodes q.1).mpr (List.mem_map_of_mem Prod.fst hq)
  rcases Option.isSome_iff_exists.mp hq1 with ⟨e0, he0⟩
  rcases hInv.entryOwner q.1 e0 he0 with ⟨_, hne0, _, hpos0⟩
  rcases List.exists_mem_of_ne_nil _ hne0 with ⟨p0, hp0⟩
  have hidxne : c.hashSortedNodes ≠ [] := List.ne_nil_of_mem (hpos0 p0 hp0).1
  have hposmem := resolvePos_mem c.hashSortedNodes (hashVal f key) hidxne
  rcases hInv.idxOwner _ hposmem with ⟨k, e, hc, hn, _⟩
  have hkey := (hInv.entryOwner k e hn).1
  exact ⟨e.node, e, getNode_eq_of_lookups c f key k e hf hne hc hn,
    by rw [hkey]; exact hn, rfl⟩

/-- C2: on a non-empty ring the binary search selects the smallest Position
Index entry `≥ hash(k)`; when that entry is the index's last element the
lookup uses index 0 instead; when no entry is `≥ hash(k)` it uses the last
element; the node returned is the one the Position Map assigns to the
selected position. -/
theorem getNode_selection (c : ConsistentHash) (f : String → Nat) (key : String)
    (hf : c.hash = some f) (hs : c.hashSortedNodes.Sorted (· < ·))
    (hnodes : c.nodes ≠ []) (hne : c.hashSortedNodes ≠ []) :
    (∀ p, IsLeastGE c.hashSortedNodes (hashVal f key) p →
      (p ≠ c.hashSortedNodes.getLastD 0 →
        resolvePos c.hashSortedNodes (hashVal f key) = p) ∧
      (p = c.hashSortedNodes.getLastD 0 →
        resolvePos c.hashSortedNodes (hashVal f key) = c.hashSortedNodes.getD 0 0)) ∧
    ((∀ x ∈ c.hashSortedNodes, x < hashVal f key) →
      resolvePos c.hashSortedNodes (hashVal f key) = c.hashSortedNodes.getLastD 0) ∧
    (∀ k e, lookupA c.circle (resolvePos c.hashSortedNodes (hashVal f key)) = some k →
      lookupA c.nodes k = some e → GetNode c key = Except.ok (some e.node)) := by
  refine ⟨?_, ?_, ?_⟩
  · intro p hp
    exact ⟨fun hne2 => resolvePos_least_ne_last _ _ p hs hp hne2,
           fun heq => resolvePos_least_eq_last _ _ p hs hp heq⟩
  · intro hall
    exact resolvePos_all_lt _ _ hne hall
  · intro k e hc hn
    exact getNode_eq_of_lookups c f key k e hf hnodes hc hn

/-- C7 amended: when the key's hash is strictly greater than every position,
`GetNode` wraps to the **last** (largest) position of the index — not the
first — and returns its owner. -/
theorem getNode_wrap_to_largest (c : ConsistentHash) (f : String → Nat) (key : String)
    (hf : c.hash = some f) (hnodes : c.nodes ≠ []) (hne : c.hashSortedNodes ≠ [])
    (hall : ∀ x ∈ c.hashSortedNodes, x < hashVal f key) :
    resolvePos c.hashSortedNodes (hashVal f key) = c.hashSortedNodes.getLastD 0 ∧
    ∀ k e, lookupA c.circle (c.hashSortedNodes.getLastD 0) = some k →
      lookupA c.nodes k = some e → GetNode c key = Except.ok (some e.node) := by
  have hres := resolvePos_all_lt c.hashSortedNodes (hashVal f key) hne hall
  refine ⟨hres, ?_⟩
  intro k e hc hn
  exact getNode_eq_of_lookups c f key k e hf hnodes (by rw [hres]; exact hc) hn

/-- C8: in every reachable ring state the Position Index is sorted ascending,
has no duplicates, and its length is the total virtual-replica count of the
registered nodes. -/
theorem index_sorted_nodup_len (c : ConsistentHash) (hr : Reachable c) :
    c.hashSortedNodes.Sorted (· ≤ ·) ∧ c.hashSortedNodes.Nodup ∧
    c.hashSortedNodes.length = sumCounts c.nodes := by
  have hInv := reachable_inv c hr
  exact ⟨hInv.sorted.le_of_lt, hInv.sorted.nodup, hInv.lenEq⟩

/-- C9: `Remove` of an unregistered key reports the error and leaves the
whole state untouched. -/
theorem remove_unregistered_noop (c : ConsistentHash) (nd : GoNode)
    (h : lookupA c.nodes nd.key = none) :
    (Remove c nd).2 = some ("node " ++ nd.key ++ " not exist") ∧ (Remove c nd).1 = c := by
  rw [remove_not_found c nd h]
  exact ⟨rfl, rfl⟩

/-- C10: with an empty Node Registry `GetNode` reports the empty-ring error
for every key, even when the hash function is still the unset `nil` of
`NewConsistentHash` — in this embedding a call through the `nil` hash would
yield a different (panic) result, so this equality shows the emptiness check
precedes any hash invocation. -/
theorem getNode_empty_registry (c : ConsistentHash) (key : String)
    (_hnil : c.hash = none) (hempty : c.nodes = []) :
    GetNode c key = Except.error "node size is 0" := by
  rw [GetNode, hempty]
  simp

/-- C6: a successful `Add` records, for replica index `t`, the hash of
`key ++ decimal t ++ decimal j` for the least retry counter `j < 3` whose
candidate is unoccupied in the Position Map at the time of the attempt, and
the registry entry has exactly one position per replica index. -/
theorem add_records_replica_positions (c : ConsistentHash) (nd : GoNode) (v : Nat)
    (hsucc : (AddWithVirtualNode c (some nd) v).2 = none) :
    ∃ e, lookupA (AddWithVirtualNode c (some nd) v).1.nodes nd.key = some e ∧
      e.node = nd ∧ e.virtualNodes.length = v ∧
      ∀ t, t < v → ∃ j, j < 3 ∧
        e.virtualNodes.getD t 0 = candidate (c.hash.getD crc32IEEE) nd.key t j ∧
        lookupA (insertPairs c.circle (e.virtualNodes.take t) nd.key)
          (candidate (c.hash.getD crc32IEEE) nd.key t j) = none ∧
        ∀ j' < j, (lookupA (insertPairs c.circle (e.virtualNodes.take t) nd.key)
          (candidate (c.hash.getD crc32IEEE) nd.key t j')).isSome := by
  rcases add_success_inv c nd v hsucc with ⟨hv, hd, circ2, ks, hpl, hstate⟩
  refine ⟨⟨nd, ks⟩, ?_, rfl, ?_, ?_⟩
  · rw [hstate]
    exact lookupA_insertA_self c.nodes nd.key _
  · exact (placeLoop_some_spec _ _ v c.circle 0 circ2 ks hpl).1
  · intro t ht
    have hspec := placeLoop_replica_spec _ _ v c.circle 0 circ2 ks hpl t ht
    simpa [Nat.zero_add] using hspec

/-- C5: `Add(n, v)` on a ring where `n` is unregistered, immediately followed
by `Remove(n)`, restores the Position Index exactly and the Position Map and
Node Registry entry-for-entry. -/
theorem add_then_remove_restores (c : ConsistentHash) (nd : GoNode) (v : Nat)
    (hsort : c.hashSortedNodes.Sorted (· ≤ ·))
    (hnot : lookupA c.nodes nd.key = none)
    (hsucc : (AddWithVirtualNode c (some nd) v).2 = none) :
    (Remove (AddWithVirtualNode c (some nd) v).1 nd).2 = none ∧
    (Remove (AddWithVirtualNode c (some nd) v).1 nd).1.hashSortedNodes =
      c.hashSortedNodes ∧
    (∀ p, lookupA (Remove (AddWithVirtualNode c (some nd) v).1 nd).1.circle p =
      lookupA c.circle p) ∧
    (∀ k, lookupA (Remove (AddWithVirtualNode c (some nd) v).1 nd).1.nodes k =
      lookupA c.nodes k) := by
  rcases add_success_inv c nd v hsucc with ⟨hv, hd, circ2, ks, hpl, hstate⟩
  rcases placeLoop_some_spec _ _ v c.circle 0 circ2 ks hpl with ⟨hlen, hksnd, hfresh, hlook⟩
  rw [hstate]
  have hlookup1 : lookupA (insertA c.nodes nd.key ⟨nd, ks⟩) nd.key = some ⟨nd, ks⟩ :=
    lookupA_insertA_self c.nodes nd.key _
  rw [remove_success_inv _ nd ⟨nd, ks⟩ hlookup1]
  refine ⟨rfl, ?_, ?_, ?_⟩
  · show ks.foldl (fun l v => removeSorted l v)
      ((c.hashSortedNodes ++ ks).insertionSort (· ≤ ·)) = c.hashSortedNodes
    have hsorted1 : ((c.hashSortedNodes ++ ks).insertionSort (· ≤ ·)).Sorted (· ≤ ·) :=
      List.sorted_insertionSort _ _
    have hmemks : ∀ u ∈ ks, u ∈ (c.hashSortedNodes ++ ks).insertionSort (· ≤ ·) := by
      intro u hu
      rw [(List.perm_insertionSort _ _).mem_iff]
      exact List.mem_append_right _ hu
    rw [foldl_removeSorted_eq_diff ks _ hsorted1 hmemks hksnd]
    have hpermE : List.Perm ((c.hashSortedNodes ++ ks).insertionSort (· ≤ ·))
        (ks ++ c.hashSortedNodes) :=
      (List.perm_insertionSort _ _).trans List.perm_append_comm
    have hdiffperm := List.Perm.diff_right ks hpermE
    rw [append_diff_self ks c.hashSortedNodes] at hdiffperm
    exact List.eq_of_perm_of_sorted hdiffperm
      (List.Pairwise.sublist (List.diff_sublist _ _) hsorted1) hsort
  · intro p
    show lookupA (ks.foldl (fun m v => eraseA m v) circ2) p = lookupA c.circle p
    by_cases hp : p ∈ ks
    · rw [lookupA_foldl_eraseA_mem circ2 ks p hp]
      exact (hfresh p hp).symm
    · rw [lookupA_foldl_eraseA_not_mem circ2 ks p hp, hlook p, if_neg hp]
  · intro k
    show lookupA (eraseA (insertA c.nodes nd.key ⟨nd, ks⟩) nd.key) k = lookupA c.nodes k
    by_cases hkk : k = nd.key
    · rw [hkk, lookupA_eraseA_self]
      exact hnot.symm
    · rw [lookupA_eraseA_ne _ nd.key k hkk, lookupA_insertA_ne _ nd.key k _ hkk]

/-! ## Concrete rings used to exercise the theorems -/

/-- Hash for the partial-commit scenario: node `A` replica 0 lands on 10;
node `B` replica 0 lands on 20, and all three retries of its replica 1 land
on the occupied position 10. -/
def hashC1 : String → Nat := fun s =>
  if s = "A00" then 10 else if s = "B00" then 20 else 10

/-- A ring with the single node `A` at position 10 under `hashC1`. -/
def ringC1 : ConsistentHash :=
  (AddWithVirtualNode (NewConsistentWithCustomHash hashC1) (some ⟨"A"⟩) 1).1

/-- Hash giving three single-replica nodes `A ↦ 10`, `B ↦ 20`, `C ↦ 30` and a
key `"k"` hashing to 25. -/
def hashC3 : String → Nat := fun s =>
  if s = "A00" then 10 else if s = "B00" then 20 else if s = "C00" then 30 else 25

/-- The three-node ring under `hashC3`. -/
def ringC3 : ConsistentHash :=
  (AddWithVirtualNode (AddWithVirtualNode (AddWithVirtualNode
    (NewConsistentWithCustomHash hashC3) (some ⟨"A"⟩) 1).1
    (some ⟨"B"⟩) 1).1 (some ⟨"C"⟩) 1).1

/-- The two-node ring `A ↦ 10`, `B ↦ 20` under `hashC3` (so `"k"` hashes
above every position). -/
def ringC7 : ConsistentHash :=
  (AddWithVirtualNode (AddWithVirtualNode
    (NewConsistentWithCustomHash hashC3) (some ⟨"A"⟩) 1).1 (some ⟨"B"⟩) 1).1

/-- Hash for a two-replica `Add` whose second replica needs one retry:
`A00 ↦ 10`, `A10 ↦ 10` (collides), `A11 ↦ 30`. -/
def hashC6 : String → Nat := fun s =>
  if s = "A00" then 10 else if s = "A10" then 10 else if s = "A11" then 30 else 0

/-- A two-node ring `A ↦ 100`, `B ↦ 200`, with every other string hashing
to 150. -/
def hashW : String → Nat := fun s =>
  if s = "A00" then 100 else if s = "B00" then 200 else 150

/-- The two-node ring under `hashW`. -/
def ringW : ConsistentHash :=
  (AddWithVirtualNode (AddWithVirtualNode
    (NewConsistentWithCustomHash hashW) (some ⟨"A"⟩) 1).1 (some ⟨"B"⟩) 1).1

/-- C1 (code bug): an `Add` that fails with the hash-collision error after
placing its first replica leaves that replica's entry committed in the
Position Map — position 20 now maps to `"B"` although the call failed, so
the Position Map is not restored to its pre-call state. -/
theorem add_collision_commits_partial_circle :
    (AddWithVirtualNode ringC1 (some ⟨"B"⟩) 2).2 = some "node B hash collision" ∧
    lookupA ringC1.circle 20 = none ∧
    lookupA (AddWithVirtualNode ringC1 (some ⟨"B"⟩) 2).1.circle 20 = some "B" ∧
    (AddWithVirtualNode ringC1 (some ⟨"B"⟩) 2).1.hashSortedNodes = ringC1.hashSortedNodes ∧
    (AddWithVirtualNode ringC1 (some ⟨"B"⟩) 2).1.nodes = ringC1.nodes := by
  refine ⟨?_, by decide, by decide, by decide, by decide⟩
  decide

/-- C3 counterexample: on the ring `A ↦ 10, B ↦ 20, C ↦ 30`, the key `"k"`
(hash 25) resolves to `A`; after removing `C` — a node distinct from `A` —
the same key resolves to `B`, so a key owned by an untouched node changed
owner. -/
theorem remove_remaps_untouched_owner_counterexample :
    GetNode ringC3 "k" = Except.ok (some ⟨"A"⟩) ∧
    (Remove ringC3 ⟨"C"⟩).2 = none ∧
    GetNode (Remove ringC3 ⟨"C"⟩).1 "k" = Except.ok (some ⟨"B"⟩) ∧
    (⟨"C"⟩ : GoNode) ≠ ⟨"A"⟩ ∧ (⟨"B"⟩ : GoNode) ≠ ⟨"A"⟩ := by
  refine ⟨rfl, by decide, rfl, by decide, by decide⟩

/-- C7 counterexample: on the ring `A ↦ 10, B ↦ 20`, the hash 25 of `"k"`
exceeds every position; `GetNode` returns `B`, the owner of the **last**
(largest) position, not the owner `A` of the first (smallest) position as
the claim states. -/
theorem getNode_wrap_counterexample :
    (∀ x ∈ ringC7.hashSortedNodes, x < hashVal hashC3 "k") ∧
    lookupA ringC7.circle (ringC7.hashSortedNodes.getD 0 0) = some "A" ∧
    GetNode ringC7 "k" = Except.ok (some ⟨"B"⟩) ∧
    (⟨"B"⟩ : GoNode) ≠ ⟨"A"⟩ := by
  refine ⟨by decide, by decide, rfl, by decide⟩

/-- C3 amended: if `Resolve(k)` returned `Y` before a successful `Remove(X)`
with `X ≠ Y`, **and `X` does not own the largest position of the Position
Index**, then `Resolve(k)` still returns `Y` afterwards.  (Without the extra
proviso the claim fails: removing the owner of the largest position shifts
the last-element wrap, see the counterexample.) -/
theorem remove_preserves_untouched_owner (c : ConsistentHash) (hr : Reachable c)
    (X Y : GoNode) (key : String) (hXY : X ≠ Y)
    (hbefore : GetNode c key = Except.ok (some Y))
    (hmax : lookupA c.circle (c.hashSortedNodes.getLastD 0) ≠ some X.key)
    (hrem : (Remove c X).2 = none) :
    GetNode (Remove c X).1 key = Except.ok (some Y) := by
  have hInv := reachable_inv c hr
  cases he : lookupA c.nodes X.key with
  | none =>
    rw [remove_not_found c X he] at hrem
    simp at hrem
  | some eX =>
    rcases hInv.entryOwner X.key eX he with ⟨hXkey, hSne, hSnd, hSpos⟩
    have hnodesne : c.nodes ≠ [] := lookupA_ne_nil c.nodes X.key eX he
    have hlen0 : ¬ c.nodes.length = 0 := by simpa [List.length_eq_zero] using hnodesne
    cases hfo : c.hash with
    | none =>
      rw [GetNode, if_neg hlen0, hfo] at hbefore
      simp at hbefore
    | some f =>
      have hsub : ∀ u ∈ eX.virtualNodes, u ∈ c.hashSortedNodes := fun u hu => (hSpos u hu).1
      have hidxne : c.hashSortedNodes ≠ [] := by
        rcases List.exists_mem_of_ne_nil _ hSne with ⟨p0, hp0⟩
        exact List.ne_nil_of_mem (hSpos p0 hp0).1
      have hposmem := resolvePos_mem c.hashSortedNodes (hashVal f key) hidxne
      rcases hInv.idxOwner _ hposmem with ⟨kY, eY, hcY, hnY, hmY⟩
      have hGN := getNode_eq_of_lookups c f key kY eY hfo hnodesne hcY hnY
      rw [hGN] at hbefore
      have hYnode : eY.node = Y := by simpa using hbefore
      have hkYY : kY = Y.key := by
        rw [← hYnode]
        exact ((hInv.entryOwner kY eY hnY).1).symm
      subst hkYY
      have hXYkey : X.key ≠ Y.key := goNode_ne_key hXY
      have hS_owner : ∀ p ∈ eX.virtualNodes, lookupA c.circle p = some X.key :=
        fun p hp => (hSpos p hp).2
      have hidx2 : eX.virtualNodes.foldl (fun l v => removeSorted l v) c.hashSortedNodes =
          c.hashSortedNodes.diff eX.virtualNodes :=
        foldl_removeSorted_eq_diff _ _ hInv.sorted.le_of_lt hsub hSnd
      have hmemD : ∀ p, p ∈ c.hashSortedNodes.diff eX.virtualNodes ↔
          p ∈ c.hashSortedNodes ∧ p ∉ eX.virtualNodes :=
        mem_diff_iff _ _ hInv.sorted.nodup
      have hoff : ∀ p, p ∉ eX.virtualNodes →
          lookupA (eX.virtualNodes.foldl (fun m v => eraseA m v) c.circle) p =
            lookupA c.circle p :=
        fun p hp => lookupA_foldl_eraseA_not_mem _ _ p hp
      have hlastmem : c.hashSortedNodes.getLastD 0 ∈ c.hashSortedNodes :=
        getLastD_mem _ hidxne
      have hlastS : c.hashSortedNodes.getLastD 0 ∉ eX.virtualNodes := by
        intro hm
        exact hmax (hS_owner _ hm)
      have hD_sorted_lt : (c.hashSortedNodes.diff eX.virtualNodes).Sorted (· < ·) :=
        List.Pairwise.sublist (List.diff_sublist _ _) hInv.sorted
      have hDlastmem : c.hashSortedNodes.getLastD 0 ∈
          c.hashSortedNodes.diff eX.virtualNodes :=
        (hmemD _).mpr ⟨hlastmem, hlastS⟩
      have hDne : c.hashSortedNodes.diff eX.virtualNodes ≠ [] :=
        List.ne_nil_of_mem hDlastmem
      have hDlast : (c.hashSortedNodes.diff eX.virtualNodes).getLastD 0 =
          c.hashSortedNodes.getLastD 0 :=
        getLastD_unique _ _ hD_sorted_lt.le_of_lt hDlastmem
          (fun x hx => sorted_le_getLastD _ hInv.sorted.le_of_lt x ((hmemD x).mp hx).1)
      have hn3 : lookupA (eraseA c.nodes X.key) Y.key = some eY := by
        rw [lookupA_eraseA_ne c.nodes X.key Y.key (fun e0 => hXYkey e0.symm)]
        exact hnY
      have hn3ne : eraseA c.nodes X.key ≠ [] := lookupA_ne_nil _ _ _ hn3
      have hkey_res : lookupA (eX.virtualNodes.foldl (fun m v => eraseA m v) c.circle)
          (resolvePos (eX.virtualNodes.foldl (fun l v => removeSorted l v) c.hashSortedNodes)
            (hashVal f key)) = some Y.key := by
        rw [hidx2]
        by_cases hex : ∃ x ∈ c.hashSortedNodes, hashVal f key ≤ x
        · rcases hex with ⟨x0, hx0, hhx0⟩
          have hlow : lowerIdx c.hashSortedNodes (hashVal f key) < c.hashSortedNodes.length :=
            (lowerIdx_lt_length_iff _ _).mpr ⟨x0, hx0, hhx0⟩
          have hleast := lowerIdx_isLeastGE c.hashSortedNodes (hashVal f key)
            hInv.sorted.le_of_lt hlow
          by_cases heqlast : c.hashSortedNodes.getD
              (lowerIdx c.hashSortedNodes (hashVal f key)) 0 = c.hashSortedNodes.getLastD 0
          · have hres := resolvePos_least_eq_last c.hashSortedNodes (hashVal f key) _
              hInv.sorted hleast heqlast
            rw [hres] at hcY
            have hminmem : c.hashSortedNodes.getD 0 0 ∈ c.hashSortedNodes :=
              getD_zero_mem _ hidxne
            have hminS : c.hashSortedNodes.getD 0 0 ∉ eX.virtualNodes := by
              intro hm
              have hxk := hS_owner _ hm
              rw [hcY] at hxk
              exact hXYkey ((Option.some.injEq _ _).mp hxk).symm
            have hminD : c.hashSortedNodes.getD 0 0 ∈
                c.hashSortedNodes.diff eX.virtualNodes :=
              (hmemD _).mpr ⟨hminmem, hminS⟩
            have honly : ∀ x ∈ c.hashSortedNodes, hashVal f key ≤ x →
                x = c.hashSortedNodes.getLastD 0 := by
              intro x hx hhx
              refine Nat.le_antisymm (sorted_le_getLastD _ hInv.sorted.le_of_lt x hx) ?_
              rw [← heqlast]
              exact hleast.2.2 x hx hhx
            have hh_last : hashVal f key ≤ c.hashSortedNodes.getLastD 0 :=
              heqlast ▸ hleast.2.1
            have hleastD : IsLeastGE (c.hashSortedNodes.diff eX.virtualNodes)
                (hashVal f key) (c.hashSortedNodes.getLastD 0) :=
              ⟨hDlastmem, hh_last,
                fun x hx hhx => Nat.le_of_eq (honly x ((hmemD x).mp hx).1 hhx).symm⟩
            have hresD := resolvePos_least_eq_last (c.hashSortedNodes.diff eX.virtualNodes)
              (hashVal f key) _ hD_sorted_lt hleastD hDlast.symm
            rw [hresD]
            have hminD_eq : (c.hashSortedNodes.diff eX.virtualNodes).getD 0 0 =
                c.hashSortedNodes.getD 0 0 :=
              getD_zero_unique _ _ hD_sorted_lt.le_of_lt hminD
                (fun x hx => sorted_getD_zero_le _ hInv.sorted.le_of_lt x ((hmemD x).mp hx).1)
            rw [hminD_eq, hoff _ hminS]
            exact hcY
          · have hres := resolvePos_least_ne_last c.hashSortedNodes (hashVal f key) _
              hInv.sorted hleast heqlast
            rw [hres] at hcY
            have hpmem : c.hashSortedNodes.getD
                (lowerIdx c.hashSortedNodes (hashVal f key)) 0 ∈ c.hashSortedNodes :=
              hleast.1
            have hpS : c.hashSortedNodes.getD
                (lowerIdx c.hashSortedNodes (hashVal f key)) 0 ∉ eX.virtualNodes := by
              intro hm
              have hxk := hS_owner _ hm
              rw [hcY] at hxk
              exact hXYkey ((Option.some.injEq _ _).mp hxk).symm
            have hpD : c.hashSortedNodes.getD
                (lowerIdx c.hashSortedNodes (hashVal f key)) 0 ∈
                c.hashSortedNodes.diff eX.virtualNodes :=
              (hmemD _).mpr ⟨hpmem, hpS⟩
            have hleastD : IsLeastGE (c.hashSortedNodes.diff eX.virtualNodes)
                (hashVal f key)
                (c.hashSortedNodes.getD (lowerIdx c.hashSortedNodes (hashVal f key)) 0) :=
              ⟨hpD, hleast.2.1, fun x hx hhx => hleast.2.2 x ((hmemD x).mp hx).1 hhx⟩
            have hpne : c.hashSortedNodes.getD
                (lowerIdx c.hashSortedNodes (hashVal f key)) 0 ≠
                (c.hashSortedNodes.diff eX.virtualNodes).getLastD 0 := by
              rw [hDlast]
              exact heqlast
            have hresD := resolvePos_least_ne_last (c.hashSortedNodes.diff eX.virtualNodes)
              (hashVal f key) _ hD_sorted_lt hleastD hpne
            rw [hresD, hoff _ hpS]
            exact hcY
        · have hall : ∀ x ∈ c.hashSortedNodes, x < hashVal f key := by
            intro x hx
            by_contra hc2
            exact hex ⟨x, hx, by omega⟩
          have hres := resolvePos_all_lt c.hashSortedNodes (hashVal f key) hidxne hall
          rw [hres] at hcY
          have hall2 : ∀ x ∈ c.hashSortedNodes.diff eX.virtualNodes, x < hashVal f key :=
            fun x hx => hall x ((hmemD x).mp hx).1
          rw [resolvePos_all_lt _ (hashVal f key) hDne hall2, hDlast, hoff _ hlastS]
          exact hcY
      rw [remove_success_inv c X eX he, ← hYnode]
      exact getNode_eq_of_lookups _ f key Y.key eY hfo hn3ne hkey_res hn3

/-! ## Witnesses: the theorems applied at concrete rings -/

theorem reachable_ringW : Reachable ringW :=
  Reachable.add _ _ _ (Reachable.add _ _ _ (Reachable.newCustom hashW))

theorem reachable_ringC3 : Reachable ringC3 :=
  Reachable.add _ _ _ (Reachable.add _ _ _ (Reachable.add _ _ _
    (Reachable.newCustom hashC3)))

theorem getNode_coverage_witness :
    ∃ n e, GetNode ringW "foo" = Except.ok (some n) ∧
      lookupA ringW.nodes n.key = some e ∧ e.node = n :=
  getNode_coverage ringW reachable_ringW (by decide) "foo"

theorem getNode_selection_witness :
    (∀ p, IsLeastGE ringW.hashSortedNodes (hashVal hashW "foo") p →
      (p ≠ ringW.hashSortedNodes.getLastD 0 →
        resolvePos ringW.hashSortedNodes (hashVal hashW "foo") = p) ∧
      (p = ringW.hashSortedNodes.getLastD 0 →
        resolvePos ringW.hashSortedNodes (hashVal hashW "foo") =
          ringW.hashSortedNodes.getD 0 0)) ∧
    ((∀ x ∈ ringW.hashSortedNodes, x < hashVal hashW "foo") →
      resolvePos ringW.hashSortedNodes (hashVal hashW "foo") =
        ringW.hashSortedNodes.getLastD 0) ∧
    (∀ k e, lookupA ringW.circle (resolvePos ringW.hashSortedNodes (hashVal hashW "foo")) =
        some k → lookupA ringW.nodes k = some e →
      GetNode ringW "foo" = Except.ok (some e.node)) :=
  getNode_selection ringW hashW "foo" rfl (by decide) (by decide) (by decide)

theorem getNode_wrap_to_largest_witness :
    resolvePos ringC7.hashSortedNodes (hashVal hashC3 "k") =
      ringC7.hashSortedNodes.getLastD 0 ∧
    ∀ k e, lookupA ringC7.circle (ringC7.hashSortedNodes.getLastD 0) = some k →
      lookupA ringC7.nodes k = some e → GetNode ringC7 "k" = Except.ok (some e.node) :=
  getNode_wrap_to_largest ringC7 hashC3 "k" rfl (by decide) (by decide) (by decide)

theorem index_sorted_nodup_len_witness :
    ringC3.hashSortedNodes.Sorted (· ≤ ·) ∧ ringC3.hashSortedNodes.Nodup ∧
    ringC3.hashSortedNodes.length = sumCounts ringC3.nodes :=
  index_sorted_nodup_len ringC3 reachable_ringC3

theorem remove_unregistered_noop_witness :
    (Remove ringW ⟨"Z"⟩).2 = some ("node " ++ (⟨"Z"⟩ : GoNode).key ++ " not exist") ∧
    (Remove ringW ⟨"Z"⟩).1 = ringW :=
  remove_unregistered_noop ringW ⟨"Z"⟩ (by decide)

theorem getNode_empty_registry_witness :
    GetNode NewConsistentHash "anything" = Except.error "node size is 0" :=
  getNode_empty_registry NewConsistentHash "anything" rfl rfl

theorem add_records_replica_positions_witness :
    ∃ e, lookupA (AddWithVirtualNode (NewConsistentWithCustomHash hashC6)
        (some ⟨"A"⟩) 2).1.nodes (⟨"A"⟩ : GoNode).key = some e ∧
      e.node = ⟨"A"⟩ ∧ e.virtualNodes.length = 2 ∧
      ∀ t, t < 2 → ∃ j, j < 3 ∧
        e.virtualNodes.getD t 0 =
          candidate ((NewConsistentWithCustomHash hashC6).hash.getD crc32IEEE)
            (⟨"A"⟩ : GoNode).key t j ∧
        lookupA (insertPairs (NewConsistentWithCustomHash hashC6).circle
            (e.virtualNodes.take t) (⟨"A"⟩ : GoNode).key)
          (candidate ((NewConsistentWithCustomHash hashC6).hash.getD crc32IEEE)
            (⟨"A"⟩ : GoNode).key t j) = none ∧
        ∀ j' < j, (lookupA (insertPairs (NewConsistentWithCustomHash hashC6).circle
            (e.virtualNodes.take t) (⟨"A"⟩ : GoNode).key)
          (candidate ((NewConsistentWithCustomHash hashC6).hash.getD crc32IEEE)
            (⟨"A"⟩ : GoNode).key t j')).isSome :=
  add_records_replica_positions (NewConsistentWithCustomHash hashC6) ⟨"A"⟩ 2 (by decide)

theorem add_then_remove_restores_witness :
    (Remove (AddWithVirtualNode ringC1 (some ⟨"B"⟩) 1).1 ⟨"B"⟩).2 = none ∧
    (Remove (AddWithVirtualNode ringC1 (some ⟨"B"⟩) 1).1 ⟨"B"⟩).1.hashSortedNodes =
      ringC1.hashSortedNodes ∧
    (∀ p, lookupA (Remove (AddWithVirtualNode ringC1 (some ⟨"B"⟩) 1).1 ⟨"B"⟩).1.circle p =
      lookupA ringC1.circle p) ∧
    (∀ k, lookupA (Remove (AddWithVirtualNode ringC1 (some ⟨"B"⟩) 1).1 ⟨"B"⟩).1.nodes k =
      lookupA ringC1.nodes k) :=
  add_then_remove_restores ringC1 ⟨"B"⟩ 1 (by decide) (by decide) (by decide)

theorem remove_preserves_untouched_owner_witness :
    GetNode (Remove ringC3 ⟨"B"⟩).1 "k" = Except.ok (some ⟨"A"⟩) :=
  remove_preserves_untouched_owner ringC3 reachable_ringC3 ⟨"B"⟩ ⟨"A"⟩ "k"
    (by decide) rfl (by decide) (by decide)
